import Mathlib

/-!
Shallow embedding of the abbreviation-extractor core (src/index.ts):
the section locator `extractAbbreviationSection` and the entry parser
`parseAbbreviations`.  Strings are modelled as `List Char`; JavaScript
string indices are modelled as character counts.  The three line regexes
are embedded as explicit greedy-with-backtracking matchers whose
priorities follow JavaScript regex semantics.
-/

/-- The JavaScript whitespace set: the characters matched by the regex
class `\s` and removed by `String.prototype.trim`. -/
def wsChars : List Char :=
  [' ', '\t', '\n', '\x0b', '\x0c', '\r', ' ', ' ',
   ' ', ' ', ' ', ' ', ' ', ' ', ' ',
   ' ', ' ', ' ', ' ', ' ', ' ',
   ' ', ' ', '　', '﻿']

def isWs (c : Char) : Bool := decide (c ∈ wsChars)

/-- The term character class `[A-Z0-9\-\.]` shared by the three regexes. -/
def isTermChar (c : Char) : Bool :=
  ('A' ≤ c && c ≤ 'Z') || ('0' ≤ c && c ≤ '9') || c == '-' || c == '.'

/-- The separator class of the first regex, as written in the source:
`[\-â€“:]`, i.e. hyphen, U+00E2, U+20AC, U+201C, colon (the middle three
characters are the mojibake rendering of an en-dash). -/
def isSepChar (c : Char) : Bool :=
  c == '-' || c == 'â' || c == '€' || c == '“' || c == ':'

/-- The regex class `\w`. -/
def isWordChar (c : Char) : Bool :=
  ('A' ≤ c && c ≤ 'Z') || ('a' ≤ c && c ≤ 'z') || ('0' ≤ c && c ≤ '9') || c == '_'

/-- The character class `[\w\s\-\.,;()]` of the third regex. -/
def isLooseDefChar (c : Char) : Bool :=
  isWordChar c || isWs c || c == '-' || c == '.' || c == ',' || c == ';' ||
    c == '(' || c == ')'

/-- JavaScript line terminators, which `.` does not match. -/
def isLineTerm (c : Char) : Bool :=
  c == '\n' || c == '\r' || c == ' ' || c == ' '

def isDotChar (c : Char) : Bool := !(isLineTerm c)

/-- Matcher for `(.+)$` at the current position: succeeds exactly when the remainder is
nonempty and free of line terminators, capturing the whole remainder. -/
def dotPlusEnd (l : List Char) : Option (List Char) :=
  if !l.isEmpty && l.all isDotChar then some l else none

/-- Matcher for `\s*(.+)$` with greedy matching and backtracking: prefer consuming a
whitespace character; on failure of the rest, retry `(.+)` here. -/
def wsThenRest : List Char → Option (List Char)
  | [] => none
  | c :: cs =>
    if isWs c then
      match wsThenRest cs with
      | some d => some d
      | none => dotPlusEnd (c :: cs)
    else dotPlusEnd (c :: cs)

/-- Matcher for `[\-â€“:]\s*(.+)$` at the current position. -/
def sepThenRest : List Char → Option (List Char)
  | [] => none
  | c :: cs => if isSepChar c then wsThenRest cs else none

/-- Matcher for `\s*[\-â€“:]\s*(.+)$` with greedy matching and backtracking. -/
def wsSepRest : List Char → Option (List Char)
  | [] => none
  | c :: cs =>
    if isWs c then
      match wsSepRest cs with
      | some d => some d
      | none => sepThenRest (c :: cs)
    else sepThenRest (c :: cs)

/-- Matcher for `\s{2,}(.+)$`: two mandatory whitespace characters, then `\s*(.+)$`. -/
def ws2Rest : List Char → Option (List Char)
  | a :: b :: rest => if isWs a && isWs b then wsThenRest rest else none
  | _ => none

/-- Matcher for `([\w\s\-\.,;()]+)$` at the current position. -/
def wPlusEnd (l : List Char) : Option (List Char) :=
  if !l.isEmpty && l.all isLooseDefChar then some l else none

/-- Matcher for `\s*([\w\s\-\.,;()]+)$` with greedy matching and backtracking. -/
def wsStarW : List Char → Option (List Char)
  | [] => none
  | c :: cs =>
    if isWs c then
      match wsStarW cs with
      | some d => some d
      | none => wPlusEnd (c :: cs)
    else wPlusEnd (c :: cs)

/-- Matcher for `\s+([\w\s\-\.,;()]+)$`: one mandatory whitespace, then `wsStarW`. -/
def wsPlusW : List Char → Option (List Char)
  | [] => none
  | c :: cs => if isWs c then wsStarW cs else none

/-- Greedy `([A-Z0-9\-\.]+)` followed by a continuation: the term run is
extended as far as possible first, shrinking on failure (never to zero),
exactly the backtracking order of a JavaScript greedy `+`. -/
def runCore (cont : List Char → Option (List Char)) :
    List Char → Option (List Char × List Char)
  | [] => none
  | c :: cs =>
    if isTermChar c then
      match runCore cont cs with
      | some (t, d) => some (c :: t, d)
      | none =>
        match cont cs with
        | some d => some ([c], d)
        | none => none
    else none

/-- The first strategy: `^([A-Z0-9\-\.]+)\s*[\-â€“:]\s*(.+)$`. -/
def match1 (l : List Char) : Option (List Char × List Char) :=
  runCore wsSepRest l

/-- The second strategy: `^([A-Z0-9\-\.]+)\s{2,}(.+)$`. -/
def match2 (l : List Char) : Option (List Char × List Char) :=
  runCore ws2Rest l

/-- The third strategy: `^([A-Z0-9\-\.]{2,})\s+([\w\s\-\.,;()]+)$`. -/
def match3 (l : List Char) : Option (List Char × List Char) :=
  match l with
  | [] => none
  | c :: cs =>
    if isTermChar c then
      (runCore wsPlusW cs).map (fun p => (c :: p.1, p.2))
    else none

/-- The ordered strategy chain of `parseAbbreviations`: first match wins. -/
def matchLine (l : List Char) : Option (List Char × List Char) :=
  match match1 l with
  | some r => some r
  | none =>
    match match2 l with
    | some r => some r
    | none => match3 l

/-- Embedding of `String.prototype.trim`. -/
def trimChars (l : List Char) : List Char :=
  (((l.dropWhile isWs).reverse).dropWhile isWs).reverse

/-- Embedding of `content.split("\n")`. -/
def splitNl : List Char → List (List Char)
  | [] => [[]]
  | c :: cs =>
    if c = '\n' then [] :: splitNl cs
    else
      match splitNl cs with
      | [] => [[c]]
      | h :: t => (c :: h) :: t

structure Abbreviation where
  term : List Char
  definition : List Char
deriving DecidableEq, Repr

/-- The per-line loop of `parseAbbreviations`: trim, skip empties, try the
strategies, keep the record when both captures are truthy (nonempty). -/
def processLines : List (List Char) → List Abbreviation
  | [] => []
  | line :: rest =>
    if (trimChars line).isEmpty then processLines rest
    else
      match matchLine (trimChars line) with
      | some (tm, df) =>
        if !tm.isEmpty && !df.isEmpty then
          ⟨trimChars tm, trimChars df⟩ :: processLines rest
        else processLines rest
      | none => processLines rest

/-- Embedding of `parseAbbreviations` from src/index.ts: split on newlines, drop the
first line, process the rest. -/
def parseAbbreviations (content : List Char) : List Abbreviation :=
  processLines ((splitNl content).drop 1)

/-- Embedding of `String.prototype.toLowerCase`, restricted to its ASCII action. -/
def lowerChar (c : Char) : Char :=
  if 'A' ≤ c ∧ c ≤ 'Z' then Char.ofNat (c.toNat + 32) else c

def lowerStr (l : List Char) : List Char := l.map lowerChar

/-- Embedding of `String.prototype.indexOf`: index of the first occurrence. -/
def indexOf? (hay needle : List Char) : Option Nat :=
  if needle.isPrefixOf hay then some 0
  else
    match hay with
    | [] => none
    | _ :: t => (indexOf? t needle).map (· + 1)

def sectionHeaders : List (List Char) :=
  ["list of abbreviations".toList, "abbreviations".toList, "acronyms".toList,
   "glossary of terms".toList, "list of acronyms".toList,
   "symbols and abbreviations".toList]

def nextMarkers : List (List Char) :=
  ["table of contents".toList, "introduction".toList, "chapter 1".toList,
   "abstract".toList, "acknowledgments".toList, "references".toList]

/-- One iteration of the header-selection loop of
`extractAbbreviationSection`. -/
def headerStep (lt : List Char) (acc : Option (Nat × List Char))
    (h : List Char) : Option (Nat × List Char) :=
  match indexOf? lt h with
  | some i =>
    match acc with
    | none => some (i, h)
    | some (j, g) => if i < j then some (i, h) else some (j, g)
  | none => acc

/-- The header-selection loop: smallest first-occurrence index wins. -/
def findHeader (text : List Char) : Option (Nat × List Char) :=
  sectionHeaders.foldl (headerStep (lowerStr text)) none

/-- One iteration of the end-marker loop of `extractAbbreviationSection`. -/
def endStep (text : List Char) (s hlen : Nat) (e : Nat) (m : List Char) : Nat :=
  match indexOf? (lowerStr (text.drop (s + hlen))) m with
  | some i => if s + hlen + i < e then s + hlen + i else e
  | none => e

/-- The end-marker loop: `endIndex` starts at the text length and is lowered
to every found marker position that improves it. -/
def computeEnd (text : List Char) (s hlen : Nat) : Nat :=
  nextMarkers.foldl (endStep text s hlen) text.length

/-- Embedding of `text.slice(a, b)` for nonnegative indices. -/
def sliceL (l : List Char) (a b : Nat) : List Char := (l.take b).drop a

/-- Embedding of `extractAbbreviationSection` from src/index.ts. -/
def extractAbbreviationSection (text : List Char) : List Abbreviation :=
  match findHeader text with
  | none => []
  | some (s, hd) =>
    parseAbbreviations (trimChars (sliceL text s (computeEnd text s hd.length)))

/-! ### List helper lemmas -/

theorem dropWhile_head_not {α : Type} {p : α → Bool} {l : List α} {a : α} {t : List α}
    (h : l.dropWhile p = a :: t) : p a = false := by
  induction l with
  | nil => simp [List.dropWhile] at h
  | cons c cs ih =>
    rw [List.dropWhile_cons] at h
    split at h
    · exact ih h
    · next hc =>
      cases h
      simpa using hc

theorem dropWhile_head?_not {α : Type} {p : α → Bool} {l : List α} {a : α}
    (h : (l.dropWhile p).head? = some a) : p a = false := by
  cases hd : l.dropWhile p with
  | nil => rw [hd] at h; simp at h
  | cons b t =>
    rw [hd] at h
    simp only [List.head?_cons, Option.some.injEq] at h
    subst h
    exact dropWhile_head_not hd

theorem dropWhile_isSuffix {α : Type} (p : α → Bool) (l : List α) :
    l.dropWhile p <:+ l := by
  induction l with
  | nil => exact List.suffix_refl _
  | cons c cs ih =>
    rw [List.dropWhile_cons]
    split
    · exact ih.trans (List.suffix_cons c cs)
    · exact List.suffix_refl _

theorem getLast?_of_suffix {α : Type} {v w : List α} (h : v <:+ w) (hv : v ≠ []) :
    v.getLast? = w.getLast? := by
  obtain ⟨pre, rfl⟩ := h
  exact (List.getLast?_append_of_ne_nil pre hv).symm

theorem mem_of_head?_eq {α : Type} {l : List α} {a : α} (h : l.head? = some a) : a ∈ l := by
  cases l with
  | nil => simp at h
  | cons c cs =>
    simp only [List.head?_cons, Option.some.injEq] at h
    exact h ▸ List.mem_cons_self c cs

theorem mem_of_getLast?_eq {α : Type} {l : List α} {a : α} (h : l.getLast? = some a) :
    a ∈ l := by
  rw [← List.head?_reverse] at h
  exact List.mem_reverse.mp (mem_of_head?_eq h)

theorem exists_getLast?_of_ne_nil {α : Type} {l : List α} (h : l ≠ []) :
    ∃ a, l.getLast? = some a := by
  rw [← List.head?_reverse]
  cases hr : l.reverse with
  | nil => exact absurd (by simpa using congrArg List.reverse hr) h
  | cons b t => exact ⟨b, rfl⟩

/-! ### Trim lemmas -/

theorem trimChars_eq_nil_forall {l : List Char} (h : trimChars l = []) :
    ∀ c ∈ l, isWs c = true := by
  unfold trimChars at h
  rw [List.reverse_eq_nil_iff] at h
  have h2 := List.dropWhile_eq_nil_iff.mp h
  intro c hc
  rw [← List.takeWhile_append_dropWhile isWs l] at hc
  rcases List.mem_append.mp hc with h3 | h3
  · exact List.mem_takeWhile_imp h3
  · exact h2 c (List.mem_reverse.mpr h3)

theorem trimChars_ne_nil {l : List Char} {c : Char} (hc : c ∈ l) (hw : isWs c = false) :
    trimChars l ≠ [] := by
  intro h
  rw [trimChars_eq_nil_forall h c hc] at hw
  exact Bool.noConfusion hw

theorem trimChars_head_not_ws {l : List Char} {a : Char}
    (h : (trimChars l).head? = some a) : isWs a = false := by
  unfold trimChars at h
  rw [List.head?_reverse] at h
  have hvne : ((l.dropWhile isWs).reverse.dropWhile isWs) ≠ [] := by
    intro hnil
    rw [hnil] at h
    simp at h
  rw [getLast?_of_suffix (dropWhile_isSuffix _ _) hvne, List.getLast?_reverse] at h
  exact dropWhile_head?_not h

theorem trimChars_getLast_not_ws {l : List Char} {a : Char}
    (h : (trimChars l).getLast? = some a) : isWs a = false := by
  unfold trimChars at h
  rw [List.getLast?_reverse] at h
  exact dropWhile_head?_not h

theorem trimChars_eq_self {l : List Char}
    (h1 : ∀ a, l.head? = some a → isWs a = false)
    (h2 : ∀ a, l.getLast? = some a → isWs a = false) :
    trimChars l = l := by
  unfold trimChars
  have e1 : l.dropWhile isWs = l := by
    cases l with
    | nil => rfl
    | cons c cs =>
      rw [List.dropWhile_cons]
      simp [h1 c rfl]
  rw [e1]
  have e2 : l.reverse.dropWhile isWs = l.reverse := by
    cases hr : l.reverse with
    | nil => rfl
    | cons c cs =>
      have hc : isWs c = false := by
        apply h2
        rw [← List.head?_reverse, hr]
        rfl
      rw [List.dropWhile_cons]
      simp [hc]
  rw [e2, List.reverse_reverse]

theorem trimChars_idem (l : List Char) : trimChars (trimChars l) = trimChars l :=
  trimChars_eq_self (fun _ h => trimChars_head_not_ws h)
    (fun _ h => trimChars_getLast_not_ws h)

theorem trimChars_eq_self_of_forall {l : List Char} (h : ∀ c ∈ l, isWs c = false) :
    trimChars l = l :=
  trimChars_eq_self (fun a ha => h a (mem_of_head?_eq ha))
    (fun a ha => h a (mem_of_getLast?_eq ha))

/-! ### Capture specifications of the matchers -/

theorem wsChar_not_term : ∀ c ∈ wsChars, isTermChar c = false := by decide

theorem termChar_not_ws {c : Char} (h : isTermChar c = true) : isWs c = false := by
  cases hws : isWs c
  · rfl
  · have hmem : c ∈ wsChars := of_decide_eq_true hws
    rw [wsChar_not_term c hmem] at h
    exact Bool.noConfusion h

theorem dotPlusEnd_spec {l d : List Char} (h : dotPlusEnd l = some d) :
    d = l ∧ d ≠ [] := by
  unfold dotPlusEnd at h
  split at h
  · next hc =>
    simp only [Option.some.injEq] at h
    subst h
    refine ⟨rfl, ?_⟩
    intro hnil
    subst hnil
    simp at hc
  · simp at h

theorem wPlusEnd_spec {l d : List Char} (h : wPlusEnd l = some d) :
    d = l ∧ d ≠ [] := by
  unfold wPlusEnd at h
  split at h
  · next hc =>
    simp only [Option.some.injEq] at h
    subst h
    refine ⟨rfl, ?_⟩
    intro hnil
    subst hnil
    simp at hc
  · simp at h

theorem wsThenRest_spec {l d : List Char} (h : wsThenRest l = some d) :
    d ≠ [] ∧ d <:+ l := by
  induction l with
  | nil => simp [wsThenRest] at h
  | cons c cs ih =>
    simp only [wsThenRest] at h
    split at h
    · split at h
      · next d' hd' =>
        simp only [Option.some.injEq] at h
        subst h
        obtain ⟨h1, h2⟩ := ih hd'
        exact ⟨h1, h2.trans (List.suffix_cons c cs)⟩
      · obtain ⟨h1, h2⟩ := dotPlusEnd_spec h
        subst h1
        exact ⟨h2, List.suffix_refl _⟩
    · obtain ⟨h1, h2⟩ := dotPlusEnd_spec h
      subst h1
      exact ⟨h2, List.suffix_refl _⟩

theorem sepThenRest_spec {l d : List Char} (h : sepThenRest l = some d) :
    d ≠ [] ∧ d <:+ l := by
  cases l with
  | nil => simp [sepThenRest] at h
  | cons c cs =>
    simp only [sepThenRest] at h
    split at h
    · obtain ⟨h1, h2⟩ := wsThenRest_spec h
      exact ⟨h1, h2.trans (List.suffix_cons c cs)⟩
    · simp at h

theorem wsSepRest_spec {l d : List Char} (h : wsSepRest l = some d) :
    d ≠ [] ∧ d <:+ l := by
  induction l with
  | nil => simp [wsSepRest] at h
  | cons c cs ih =>
    simp only [wsSepRest] at h
    split at h
    · split at h
      · next d' hd' =>
        simp only [Option.some.injEq] at h
        subst h
        obtain ⟨h1, h2⟩ := ih hd'
        exact ⟨h1, h2.trans (List.suffix_cons c cs)⟩
      · exact sepThenRest_spec h
    · exact sepThenRest_spec h

theorem ws2Rest_spec {l d : List Char} (h : ws2Rest l = some d) :
    d ≠ [] ∧ d <:+ l := by
  cases l with
  | nil => simp [ws2Rest] at h
  | cons a t =>
    cases t with
    | nil => simp [ws2Rest] at h
    | cons b rest =>
      simp only [ws2Rest] at h
      split at h
      · obtain ⟨h1, h2⟩ := wsThenRest_spec h
        exact ⟨h1, h2.trans ((List.suffix_cons b rest).trans
          (List.suffix_cons a (b :: rest)))⟩
      · simp at h

theorem wsStarW_spec {l d : List Char} (h : wsStarW l = some d) :
    d ≠ [] ∧ d <:+ l := by
  induction l with
  | nil => simp [wsStarW] at h
  | cons c cs ih =>
    simp only [wsStarW] at h
    split at h
    · split at h
      · next d' hd' =>
        simp only [Option.some.injEq] at h
        subst h
        obtain ⟨h1, h2⟩ := ih hd'
        exact ⟨h1, h2.trans (List.suffix_cons c cs)⟩
      · obtain ⟨h1, h2⟩ := wPlusEnd_spec h
        subst h1
        exact ⟨h2, List.suffix_refl _⟩
    · obtain ⟨h1, h2⟩ := wPlusEnd_spec h
      subst h1
      exact ⟨h2, List.suffix_refl _⟩

theorem wsPlusW_spec {l d : List Char} (h : wsPlusW l = some d) :
    d ≠ [] ∧ d <:+ l := by
  cases l with
  | nil => simp [wsPlusW] at h
  | cons c cs =>
    simp only [wsPlusW] at h
    split at h
    · obtain ⟨h1, h2⟩ := wsStarW_spec h
      exact ⟨h1, h2.trans (List.suffix_cons c cs)⟩
    · simp at h

theorem runCore_spec {cont : List Char → Option (List Char)}
    (hcont : ∀ r d, cont r = some d → d ≠ [] ∧ d <:+ r) :
    ∀ {l t d : List Char}, runCore cont l = some (t, d) →
      t ≠ [] ∧ (∀ c ∈ t, isTermChar c = true) ∧ d ≠ [] ∧ d <:+ l := by
  intro l
  induction l with
  | nil => intro t d h; simp [runCore] at h
  | cons c cs ih =>
    intro t d h
    simp only [runCore] at h
    split at h
    · next hc =>
      split at h
      · next t' d' heq =>
        simp only [Option.some.injEq, Prod.mk.injEq] at h
        obtain ⟨ht, hd⟩ := h
        subst ht
        subst hd
        obtain ⟨h1, h2, h3, h4⟩ := ih heq
        refine ⟨by simp, ?_, h3, h4.trans (List.suffix_cons c cs)⟩
        intro x hx
        rcases List.mem_cons.mp hx with rfl | hx'
        · exact hc
        · exact h2 x hx'
      · split at h
        · next d' heq =>
          simp only [Option.some.injEq, Prod.mk.injEq] at h
          obtain ⟨ht, hd⟩ := h
          subst ht
          subst hd
          obtain ⟨h1, h2⟩ := hcont cs d' heq
          refine ⟨by simp, ?_, h1, h2.trans (List.suffix_cons c cs)⟩
          intro x hx
          rcases List.mem_cons.mp hx with rfl | hx'
          · exact hc
          · simp at hx'
        · simp at h
    · simp at h

theorem matchLine_spec {l t d : List Char} (h : matchLine l = some (t, d)) :
    t ≠ [] ∧ (∀ c ∈ t, isTermChar c = true) ∧ d ≠ [] ∧ d <:+ l := by
  unfold matchLine at h
  split at h
  · next r heq =>
    simp only [Option.some.injEq] at h
    subst h
    exact runCore_spec (fun r d hr => wsSepRest_spec hr) heq
  · split at h
    · next r heq =>
      simp only [Option.some.injEq] at h
      subst h
      exact runCore_spec (fun r d hr => ws2Rest_spec hr) heq
    · -- match3 branch
      unfold match3 at h
      cases l with
      | nil => simp at h
      | cons c cs =>
        simp only at h
        split at h
        · next hc =>
          cases hrc : runCore wsPlusW cs with
          | none => rw [hrc] at h; simp at h
          | some p =>
            rw [hrc] at h
            simp only [Option.map_some', Option.some.injEq, Prod.mk.injEq] at h
            obtain ⟨ht, hd⟩ := h
            obtain ⟨h1, h2, h3, h4⟩ := runCore_spec (fun r d hr => wsPlusW_spec hr)
              (by rw [hrc])
            subst ht
            subst hd
            refine ⟨by simp, ?_, h3, h4.trans (List.suffix_cons c cs)⟩
            intro x hx
            rcases List.mem_cons.mp hx with rfl | hx'
            · exact hc
            · exact h2 x hx'
        · simp at h

/-! ### Parse-level lemmas -/

theorem processLines_mem {lines : List (List Char)} {r : Abbreviation}
    (h : r ∈ processLines lines) :
    ∃ line ∈ lines, ∃ tm df, trimChars line ≠ [] ∧
      matchLine (trimChars line) = some (tm, df) ∧
      r = ⟨trimChars tm, trimChars df⟩ := by
  induction lines with
  | nil => simp [processLines] at h
  | cons line rest ih =>
    simp only [processLines] at h
    split at h
    · obtain ⟨l', hl', rest'⟩ := ih h
      exact ⟨l', List.mem_cons_of_mem _ hl', rest'⟩
    · next hne =>
      split at h
      · next tm df heq =>
        split at h
        · rcases List.mem_cons.mp h with rfl | h'
          · refine ⟨line, List.mem_cons_self _ _, tm, df, ?_, heq, rfl⟩
            intro hnil
            rw [hnil] at hne
            simp at hne
          · obtain ⟨l', hl', rest'⟩ := ih h'
            exact ⟨l', List.mem_cons_of_mem _ hl', rest'⟩
        · obtain ⟨l', hl', rest'⟩ := ih h
          exact ⟨l', List.mem_cons_of_mem _ hl', rest'⟩
      · obtain ⟨l', hl', rest'⟩ := ih h
        exact ⟨l', List.mem_cons_of_mem _ hl', rest'⟩

theorem processLines_all_none {lines : List (List Char)}
    (h : ∀ l ∈ lines, matchLine (trimChars l) = none) : processLines lines = [] := by
  induction lines with
  | nil => rfl
  | cons line rest ih =>
    have ih' := ih (fun l hl => h l (List.mem_cons_of_mem _ hl))
    simp only [processLines]
    split
    · exact ih'
    · rw [h line (List.mem_cons_self _ _)]
      exact ih'

theorem splitNl_no_nl {l : List Char} (h : '\n' ∉ l) : splitNl l = [l] := by
  induction l with
  | nil => rfl
  | cons c cs ih =>
    have hc : ¬ c = '\n' := fun he => h (he ▸ List.mem_cons_self c cs)
    simp only [splitNl, if_neg hc]
    rw [ih (fun hm => h (List.mem_cons_of_mem c hm))]

theorem splitNl_append {l₁ : List Char} (rest : List Char) (h : '\n' ∉ l₁) :
    splitNl (l₁ ++ '\n' :: rest) = l₁ :: splitNl rest := by
  induction l₁ with
  | nil => simp [splitNl]
  | cons c cs ih =>
    have hc : ¬ c = '\n' := fun he => h (he ▸ List.mem_cons_self c _)
    rw [List.cons_append, splitNl, if_neg hc, ih (fun hm => h (List.mem_cons_of_mem c hm))]

/-! ### Locator-level lemmas -/

theorem indexOf?_le_length : ∀ {hay needle : List Char} {i : Nat},
    indexOf? hay needle = some i → i ≤ hay.length := by
  intro hay
  induction hay with
  | nil =>
    intro needle i h
    unfold indexOf? at h
    split at h
    · simp only [Option.some.injEq] at h
      omega
    · simp at h
  | cons c t ih =>
    intro needle i h
    unfold indexOf? at h
    split at h
    · simp only [Option.some.injEq] at h
      omega
    · simp only [Option.map_eq_some'] at h
      obtain ⟨i', hi', rfl⟩ := h
      have := ih hi'
      simp only [List.length_cons]
      omega

theorem headerFold_keep {lt : List Char} {i : Nat} {h : List Char} :
    ∀ (hs : List (List Char)),
      (∀ g ∈ hs, ∀ j, indexOf? lt g = some j → i ≤ j) →
      hs.foldl (headerStep lt) (some (i, h)) = some (i, h) := by
  intro hs
  induction hs with
  | nil => intro _; rfl
  | cons g t ih =>
    intro hbound
    have step : headerStep lt (some (i, h)) g = some (i, h) := by
      unfold headerStep
      cases hg : indexOf? lt g with
      | none => rfl
      | some j =>
        have hij := hbound g (List.mem_cons_self g t) j hg
        simp [Nat.not_lt.mpr hij]
    rw [List.foldl_cons, step]
    exact ih (fun g' hg' => hbound g' (List.mem_cons_of_mem g hg'))

theorem headerFold_pick {lt : List Char} {h : List Char} {i : Nat} :
    ∀ (hs : List (List Char)) (acc : Option (Nat × List Char)),
      h ∈ hs → indexOf? lt h = some i →
      (∀ g ∈ hs, g ≠ h → ∀ j, indexOf? lt g = some j → i < j) →
      (acc = none ∨ ∃ j g, acc = some (j, g) ∧ i < j) →
      hs.foldl (headerStep lt) acc = some (i, h) := by
  intro hs
  induction hs with
  | nil => intro acc hmem; cases hmem
  | cons g₀ t ih =>
    intro acc hmem hidx hmin hacc
    rw [List.foldl_cons]
    by_cases hg0 : g₀ = h
    · subst hg0
      have step : headerStep lt acc g₀ = some (i, g₀) := by
        unfold headerStep
        rw [hidx]
        rcases hacc with rfl | ⟨j, g, rfl, hij⟩
        · rfl
        · simp [hij]
      rw [step]
      apply headerFold_keep
      intro g' hg' j hj
      by_cases hgh : g' = g₀
      · subst hgh
        rw [hidx] at hj
        simp only [Option.some.injEq] at hj
        omega
      · exact Nat.le_of_lt (hmin g' (List.mem_cons_of_mem g₀ hg') hgh j hj)
    · have hmem' : h ∈ t := by
        rcases List.mem_cons.mp hmem with rfl | hm
        · exact absurd rfl hg0
        · exact hm
      apply ih _ hmem' hidx (fun g hg => hmin g (List.mem_cons_of_mem g₀ hg))
      unfold headerStep
      cases hg : indexOf? lt g₀ with
      | none => exact hacc
      | some j =>
        have hij : i < j := hmin g₀ (List.mem_cons_self g₀ t) hg0 j hg
        rcases hacc with rfl | ⟨k, g, rfl, hik⟩
        · exact Or.inr ⟨j, g₀, rfl, hij⟩
        · by_cases hjk : j < k
          · simp only [if_pos hjk]
            exact Or.inr ⟨j, g₀, rfl, hij⟩
          · simp only [if_neg hjk]
            exact Or.inr ⟨k, g, rfl, hik⟩

theorem headerFold_none {lt : List Char} :
    ∀ (hs : List (List Char)),
      (∀ g ∈ hs, indexOf? lt g = none) →
      hs.foldl (headerStep lt) none = none := by
  intro hs
  induction hs with
  | nil => intro _; rfl
  | cons g t ih =>
    intro hnone
    rw [List.foldl_cons]
    have step : headerStep lt none g = none := by
      unfold headerStep
      rw [hnone g (List.mem_cons_self g t)]
    rw [step]
    exact ih (fun g' hg' => hnone g' (List.mem_cons_of_mem g hg'))

theorem headerFold_sound {lt : List Char} :
    ∀ (hs : List (List Char)) (acc : Option (Nat × List Char)),
      (acc = none ∨ ∃ j g, acc = some (j, g) ∧ indexOf? lt g = some j) →
      (hs.foldl (headerStep lt) acc = none ∨
        ∃ j g, hs.foldl (headerStep lt) acc = some (j, g) ∧ indexOf? lt g = some j) := by
  intro hs
  induction hs with
  | nil => intro acc hacc; exact hacc
  | cons g₀ t ih =>
    intro acc hacc
    rw [List.foldl_cons]
    apply ih
    unfold headerStep
    cases hg : indexOf? lt g₀ with
    | none => exact hacc
    | some j =>
      rcases hacc with rfl | ⟨k, g, rfl, hk⟩
      · exact Or.inr ⟨j, g₀, rfl, hg⟩
      · by_cases hjk : j < k
        · simp only [if_pos hjk]
          exact Or.inr ⟨j, g₀, rfl, hg⟩
        · simp only [if_neg hjk]
          exact Or.inr ⟨k, g, rfl, hk⟩

theorem endFold_spec (text : List Char) (s hlen : Nat) :
    ∀ (ms : List (List Char)) (e0 : Nat),
      ms.foldl (endStep text s hlen) e0 ≤ e0 ∧
      (∀ m ∈ ms, ∀ k, indexOf? (lowerStr (text.drop (s + hlen))) m = some k →
        ms.foldl (endStep text s hlen) e0 ≤ s + hlen + k) ∧
      (ms.foldl (endStep text s hlen) e0 = e0 ∨
        ∃ m ∈ ms, ∃ k, indexOf? (lowerStr (text.drop (s + hlen))) m = some k ∧
          ms.foldl (endStep text s hlen) e0 = s + hlen + k) := by
  intro ms
  induction ms with
  | nil => intro e0; exact ⟨Nat.le_refl _, by simp, Or.inl rfl⟩
  | cons m t ih =>
    intro e0
    rw [List.foldl_cons]
    obtain ⟨ih1, ih2, ih3⟩ := ih (endStep text s hlen e0 m)
    have hstep : (endStep text s hlen e0 m ≤ e0) ∧
        (∀ k, indexOf? (lowerStr (text.drop (s + hlen))) m = some k →
          endStep text s hlen e0 m ≤ s + hlen + k) ∧
        (endStep text s hlen e0 m = e0 ∨
          ∃ k, indexOf? (lowerStr (text.drop (s + hlen))) m = some k ∧
            endStep text s hlen e0 m = s + hlen + k) := by
      unfold endStep
      cases hm : indexOf? (lowerStr (text.drop (s + hlen))) m with
      | none => exact ⟨Nat.le_refl _, by simp, Or.inl rfl⟩
      | some k =>
        by_cases hk : s + hlen + k < e0
        · simp only [if_pos hk]
          refine ⟨Nat.le_of_lt hk, ?_, Or.inr ⟨k, rfl, rfl⟩⟩
          intro k' hk'
          simp only [Option.some.injEq] at hk'
          omega
        · simp only [if_neg hk]
          refine ⟨Nat.le_refl _, ?_, Or.inl (by simp)⟩
          intro k' hk'
          simp only [Option.some.injEq] at hk'
          omega
    refine ⟨Nat.le_trans ih1 hstep.1, ?_, ?_⟩
    · intro m' hm' k hk
      rcases List.mem_cons.mp hm' with rfl | hm''
      · exact Nat.le_trans ih1 (hstep.2.1 k hk)
      · exact ih2 m' hm'' k hk
    · rcases ih3 with heq | ⟨m', hm', k, hk, heqk⟩
      · rcases hstep.2.2 with heq0 | ⟨k, hk, heqk⟩
        · exact Or.inl (heq.trans heq0)
        · exact Or.inr ⟨m, List.mem_cons_self m t, k, hk, heq.trans heqk⟩
      · exact Or.inr ⟨m', List.mem_cons_of_mem m hm', k, hk, heqk⟩

theorem endFold_id (text : List Char) (s hlen : Nat) :
    ∀ (ms : List (List Char)) (e0 : Nat),
      (∀ m ∈ ms, indexOf? (lowerStr (text.drop (s + hlen))) m = none) →
      ms.foldl (endStep text s hlen) e0 = e0 := by
  intro ms
  induction ms with
  | nil => intro e0 _; rfl
  | cons m t ih =>
    intro e0 hnone
    rw [List.foldl_cons]
    have step : endStep text s hlen e0 m = e0 := by
      unfold endStep
      rw [hnone m (List.mem_cons_self m t)]
    rw [step]
    exact ih e0 (fun m' hm' => hnone m' (List.mem_cons_of_mem m hm'))

/-! ### Claim theorems -/

/-- C1: the first (dash/colon) strategy of `parseAbbreviations` does NOT accept
an en-dash (U+2013) separator: the separator class written in the source is the
mojibake sequence `â€“` (U+00E2, U+20AC, U+201C), not the en-dash, so the line
`GDP – Gross Domestic Product` matches no strategy and yields no record. -/
theorem c1_endash_separator_rejected :
    isSepChar '–' = false ∧
    match1 "GDP – Gross Domestic Product".toList = none ∧
    matchLine "GDP – Gross Domestic Product".toList = none ∧
    parseAbbreviations "Abbreviations\nGDP – Gross Domestic Product".toList = [] := by
  refine ⟨by decide, by decide, by decide, by decide⟩

/-- C2: the header-selection loop of `extractAbbreviationSection` selects the
header with the smallest first-occurrence index, regardless of its position in
the configured list: if `h` occurs first at `i` and every other configured
header occurs only strictly later (or not at all), `findHeader` returns
`(i, h)`. -/
theorem c2_leftmost_header_selected (text : List Char) (h : List Char) (i : Nat)
    (hmem : h ∈ sectionHeaders)
    (hidx : indexOf? (lowerStr text) h = some i)
    (hmin : ∀ g ∈ sectionHeaders, g ≠ h →
      ∀ j, indexOf? (lowerStr text) g = some j → i < j) :
    findHeader text = some (i, h) :=
  headerFold_pick sectionHeaders none hmem hidx hmin (Or.inl rfl)

theorem c2_leftmost_header_selected_witness :
    findHeader "our acronyms and abbreviations here".toList =
      some (4, "acronyms".toList) := by
  apply c2_leftmost_header_selected
  · decide
  · decide
  · intro g hg hne j hj
    simp only [sectionHeaders, List.mem_cons, List.not_mem_nil, or_false] at hg
    rcases hg with rfl | rfl | rfl | rfl | rfl | rfl
    · have h0 : indexOf? (lowerStr "our acronyms and abbreviations here".toList)
          "list of abbreviations".toList = none := by decide
      rw [h0] at hj
      exact Option.noConfusion hj
    · have h0 : indexOf? (lowerStr "our acronyms and abbreviations here".toList)
          "abbreviations".toList = some 17 := by decide
      rw [h0] at hj
      simp only [Option.some.injEq] at hj
      omega
    · exact absurd rfl hne
    · have h0 : indexOf? (lowerStr "our acronyms and abbreviations here".toList)
          "glossary of terms".toList = none := by decide
      rw [h0] at hj
      exact Option.noConfusion hj
    · have h0 : indexOf? (lowerStr "our acronyms and abbreviations here".toList)
          "list of acronyms".toList = none := by decide
      rw [h0] at hj
      exact Option.noConfusion hj
    · have h0 : indexOf? (lowerStr "our acronyms and abbreviations here".toList)
          "symbols and abbreviations".toList = none := by decide
      rw [h0] at hj
      exact Option.noConfusion hj

/-- C3: the end offset computed by `extractAbbreviationSection` is the minimum
of the document length and every found next-marker position, each taken as
`start + header length + local index` in the text after the header. -/
theorem c3_end_is_min (text : List Char) (s hlen : Nat) :
    computeEnd text s hlen ≤ text.length ∧
    (∀ m ∈ nextMarkers, ∀ k,
      indexOf? (lowerStr (text.drop (s + hlen))) m = some k →
      computeEnd text s hlen ≤ s + hlen + k) ∧
    (computeEnd text s hlen = text.length ∨
      ∃ m ∈ nextMarkers, ∃ k,
        indexOf? (lowerStr (text.drop (s + hlen))) m = some k ∧
        computeEnd text s hlen = s + hlen + k) :=
  endFold_spec text s hlen nextMarkers text.length

/-- C4: `parseAbbreviations` discards the first line unconditionally: its
result does not depend on the content of the first line, and a single-line
input yields no records. -/
theorem c4_first_line_discarded :
    (∀ l₁ l₂ rest : List Char, '\n' ∉ l₁ → '\n' ∉ l₂ →
      parseAbbreviations (l₁ ++ '\n' :: rest) =
        parseAbbreviations (l₂ ++ '\n' :: rest)) ∧
    (∀ l : List Char, '\n' ∉ l → parseAbbreviations l = []) := by
  constructor
  · intro l₁ l₂ rest h1 h2
    unfold parseAbbreviations
    rw [splitNl_append rest h1, splitNl_append rest h2]
    rfl
  · intro l h
    unfold parseAbbreviations
    rw [splitNl_no_nl h]
    rfl

theorem c4_first_line_discarded_witness :
    parseAbbreviations ("API - Application Programming Interface".toList ++
        '\n' :: "GDP - Gross Domestic Product".toList) =
      parseAbbreviations ("irrelevant header line".toList ++
        '\n' :: "GDP - Gross Domestic Product".toList) ∧
    parseAbbreviations "API - Application Programming Interface".toList = [] :=
  ⟨c4_first_line_discarded.1 _ _ _ (by decide) (by decide),
   c4_first_line_discarded.2 _ (by decide)⟩

/-- C5: when no configured header occurs in the lowercased text,
`extractAbbreviationSection` returns the empty record list. -/
theorem c5_no_header_yields_empty (text : List Char)
    (h : ∀ g ∈ sectionHeaders, indexOf? (lowerStr text) g = none) :
    extractAbbreviationSection text = [] := by
  have hnone : findHeader text = none := headerFold_none sectionHeaders h
  unfold extractAbbreviationSection
  rw [hnone]

theorem c5_no_header_yields_empty_witness :
    extractAbbreviationSection [] = [] :=
  c5_no_header_yields_empty [] (by decide)

/-- C6: whenever a header is found at `s`, the computed section end is at
least `s`; and when no next-marker is found after the header, the end equals
the document length. -/
theorem c6_section_bounds (text : List Char) (s : Nat) (hd : List Char)
    (h : findHeader text = some (s, hd)) :
    s ≤ computeEnd text s hd.length ∧
    ((∀ m ∈ nextMarkers,
        indexOf? (lowerStr (text.drop (s + hd.length))) m = none) →
      computeEnd text s hd.length = text.length) := by
  have hsound := @headerFold_sound (lowerStr text) sectionHeaders
    (none : Option (Nat × List Char)) (Or.inl rfl)
  rw [show sectionHeaders.foldl (headerStep (lowerStr text)) none = findHeader text
    from rfl, h] at hsound
  rcases hsound with hnone | ⟨j, g, heq, hidx⟩
  · exact absurd hnone (by simp)
  · simp only [Option.some.injEq, Prod.mk.injEq] at heq
    obtain ⟨hj, hg⟩ := heq
    subst hj
    subst hg
    have hs_le : s ≤ text.length := by
      have := indexOf?_le_length hidx
      simpa [lowerStr] using this
    obtain ⟨e1, e2, e3⟩ := endFold_spec text s hd.length nextMarkers text.length
    unfold computeEnd
    constructor
    · rcases e3 with heq0 | ⟨m, hm, k, hk, heqk⟩
      · rw [heq0]
        exact hs_le
      · rw [heqk]
        omega
    · intro hnone
      exact endFold_id text s hd.length nextMarkers text.length hnone

theorem c6_section_bounds_witness :
    0 ≤ computeEnd "abbreviations".toList 0 ("abbreviations".toList).length ∧
    ((∀ m ∈ nextMarkers,
        indexOf? (lowerStr ("abbreviations".toList.drop
          (0 + ("abbreviations".toList).length))) m = none) →
      computeEnd "abbreviations".toList 0 ("abbreviations".toList).length =
        "abbreviations".toList.length) :=
  c6_section_bounds "abbreviations".toList 0 "abbreviations".toList (by decide)

/-- C7: the three strategies are tried in order with the first match winning,
and on the two spec examples the dash strategy, respectively the wide-gap
strategy, produces the stated records. -/
theorem c7_strategy_order :
    (∀ l r, match1 l = some r → matchLine l = some r) ∧
    (∀ l r, match1 l = none → match2 l = some r → matchLine l = some r) ∧
    (∀ l, match1 l = none → match2 l = none → matchLine l = match3 l) ∧
    match1 "API - Application Programming Interface".toList =
      some ("API".toList, "Application Programming Interface".toList) ∧
    parseAbbreviations "Abbreviations\nAPI - Application Programming Interface".toList =
      [⟨"API".toList, "Application Programming Interface".toList⟩] ∧
    match1 "HTML    HyperText Markup Language".toList = none ∧
    match2 "HTML    HyperText Markup Language".toList =
      some ("HTML".toList, "HyperText Markup Language".toList) ∧
    parseAbbreviations "Abbreviations\nHTML    HyperText Markup Language".toList =
      [⟨"HTML".toList, "HyperText Markup Language".toList⟩] := by
  refine ⟨?_, ?_, ?_, by decide, by decide, by decide, by decide, by decide⟩
  · intro l r h
    simp [matchLine, h]
  · intro l r h1 h2
    simp [matchLine, h1, h2]
  · intro l h1 h2
    simp [matchLine, h1, h2]

theorem c7_strategy_order_witness :
    matchLine "HTML    HyperText Markup Language".toList =
      some ("HTML".toList, "HyperText Markup Language".toList) :=
  c7_strategy_order.2.1 _ _ (by decide) (by decide)

/-- C8: the entry parser is total and silently drops unmatched lines: when no
remaining line matches any strategy the result is empty, and the noisy line
`See: http://example.com for details` produces no record. -/
theorem c8_no_match_no_record :
    (∀ content : List Char,
      (∀ l ∈ (splitNl content).drop 1, matchLine (trimChars l) = none) →
      parseAbbreviations content = []) ∧
    matchLine (trimChars "See: http://example.com for details".toList) = none ∧
    parseAbbreviations "Abbreviations\nSee: http://example.com for details".toList = [] := by
  refine ⟨?_, by decide, by decide⟩
  intro content h
  unfold parseAbbreviations
  exact processLines_all_none h

theorem c8_no_match_no_record_witness :
    parseAbbreviations "Notes\nSee: http://example.com for details".toList = [] :=
  c8_no_match_no_record.1 _ (by decide)

/-- C9: every record produced by `parseAbbreviations` has a nonempty,
trim-stable term and a nonempty, trim-stable definition. -/
theorem c9_records_trimmed_nonempty (content : List Char) (r : Abbreviation)
    (hr : r ∈ parseAbbreviations content) :
    r.term ≠ [] ∧ trimChars r.term = r.term ∧
    r.definition ≠ [] ∧ trimChars r.definition = r.definition := by
  unfold parseAbbreviations at hr
  obtain ⟨line, hline, tm, df, hne, hm, hrec⟩ := processLines_mem hr
  obtain ⟨ht1, ht2, hd1, hd2⟩ := matchLine_spec hm
  have htw : ∀ c ∈ tm, isWs c = false := fun c hc => termChar_not_ws (ht2 c hc)
  have hterm_eq : trimChars tm = tm := trimChars_eq_self_of_forall htw
  obtain ⟨a, ha⟩ := exists_getLast?_of_ne_nil hne
  have haws : isWs a = false := trimChars_getLast_not_ws ha
  have hda : df.getLast? = some a := by
    rw [getLast?_of_suffix hd2 hd1]
    exact ha
  have hamem : a ∈ df := mem_of_getLast?_eq hda
  have hdfne : trimChars df ≠ [] := trimChars_ne_nil hamem haws
  subst hrec
  refine ⟨?_, ?_, ?_, ?_⟩
  · show trimChars tm ≠ []
    rw [hterm_eq]
    exact ht1
  · show trimChars (trimChars tm) = trimChars tm
    exact trimChars_idem tm
  · exact hdfne
  · exact trimChars_idem df

theorem c9_records_trimmed_nonempty_witness :
    (Abbreviation.mk "GDP".toList "Gross Domestic Product".toList).term ≠ [] ∧
    trimChars (Abbreviation.mk "GDP".toList "Gross Domestic Product".toList).term =
      (Abbreviation.mk "GDP".toList "Gross Domestic Product".toList).term ∧
    (Abbreviation.mk "GDP".toList "Gross Domestic Product".toList).definition ≠ [] ∧
    trimChars (Abbreviation.mk "GDP".toList "Gross Domestic Product".toList).definition =
      (Abbreviation.mk "GDP".toList "Gross Domestic Product".toList).definition :=
  c9_records_trimmed_nonempty
    "Abbreviations\nGDP - Gross Domestic Product".toList
    (Abbreviation.mk "GDP".toList "Gross Domestic Product".toList)
    (by decide)

/-- C10 counterexample: the line `-- Note` is accepted by the dash/colon
strategy as claimed, but it is not a line "containing no uppercase letter and
no digit": its definition part contains the uppercase letter `N`. -/
theorem c10_counterexample :
    match1 "-- Note".toList = some ("-".toList, "Note".toList) ∧
    "-- Note".toList.all
      (fun c => !(('A' ≤ c && c ≤ 'Z') || ('0' ≤ c && c ≤ '9'))) = false := by
  refine ⟨by decide, by decide⟩

/-- C10 (amended): there exists an input line with no uppercase letter and no
digit anywhere that the parser accepts (the all-lowercase `-- note`), and the
line `-- Note` — whose leading term run `-` consists solely of a hyphen —
matches the dash/colon strategy and yields the record with term `-` and
definition `Note`. -/
theorem c10_dash_only_line_accepted :
    (∃ l : List Char,
      l.all (fun c => !(('A' ≤ c && c ≤ 'Z') || ('0' ≤ c && c ≤ '9'))) = true ∧
      matchLine l = some ("-".toList, "note".toList)) ∧
    "-".toList.all
      (fun c => !(('A' ≤ c && c ≤ 'Z') || ('0' ≤ c && c ≤ '9'))) = true ∧
    match1 "-- Note".toList = some ("-".toList, "Note".toList) ∧
    matchLine "-- Note".toList = some ("-".toList, "Note".toList) ∧
    parseAbbreviations "Abbreviations\n-- Note".toList =
      [⟨"-".toList, "Note".toList⟩] := by
  refine ⟨⟨"-- note".toList, by decide, by decide⟩, by decide, by decide,
    by decide, by decide⟩
